import Mathlib

/-!
Shallow embedding of the Nachos on-disk filesystem layer:
`FileHeader` (src/code/filesys/filehdr.cc) and `Directory`
(src/code/filesys/directory.cc), together with models of their two
external collaborators (free-space bitmap, sector store) taken from the
spec's interface description.

Machine integers from the C++ sources are modelled as `Int` (sector
numbers use the `-1` sentinel); the free-space bitmap is a `List Bool`
(`true` = allocated); the sector store is an association list of
(sector, contents) pairs with later writes shadowing earlier ones.
A C++ `ASSERT` failure is a fatal abort and is modelled by `Option`:
`none` means the call died on an assertion.
-/

/-- Bytes per disk sector (configured constant, spec §8 scenario B). -/
def SectorSize : Int := 128

/-- Number of direct sector slots in a file header (spec §8 scenario B). -/
def NumDirect : Int := 10

/-- Data sectors per indirection block (spec §8 scenario B). -/
def NumSectorForBlock : Int := 32

/-- Modelled from the spec: the number of indirection-block slots
`NumIndirect` is not fixed anywhere under src/; the on-disk layout of §6
(four 4-byte counters, `NumDirect` direct slots, `NumIndirect` indirect
slots, all within one `SectorSize`-byte sector) bounds it by 18, which we
adopt.  No claim's truth depends on the exact value. -/
def NumIndirect : Int := 18

/-- Modelled from the spec: `divRoundUp(n, s)` from Nachos utility.h (not
under src/), i.e. `ceil(n / s)` for the non-negative arguments it is used
with (`numSectors = ceil(fileSize / SectorSize)`, spec §3). -/
def divRoundUp (n d : Int) : Int :=
  n / d + (if n % d > 0 then 1 else 0)

namespace Bitmap

/-- Index of the first clear (`false`) bit, if any. -/
def findClear : List Bool → Option Nat
  | [] => none
  | b :: bs => if b then (findClear bs).map Nat.succ else some 0

/-- Modelled from the spec (§6): `FindAndSet() -> sectorNumber | -1`:
find the lowest clear bit, mark it allocated and return its index, or
return `-1` leaving the bitmap unchanged when no bit is clear. -/
def FindAndSet (bm : List Bool) : Int × List Bool :=
  match findClear bm with
  | some i => ((i : Int), bm.set i true)
  | none => (-1, bm)

/-- Modelled from the spec (§6): `NumClear() -> count` of clear bits. -/
def NumClear (bm : List Bool) : Int :=
  (bm.count false : Int)

/-- Modelled from the spec (§6): `Test(sectorNumber) -> bool`. -/
def Test (bm : List Bool) (s : Int) : Bool :=
  decide (0 ≤ s) && bm.getD s.toNat false

/-- Modelled from the spec (§6): `Clear(sectorNumber)`. -/
def Clear (bm : List Bool) (s : Int) : List Bool :=
  bm.set s.toNat false

end Bitmap

/-- The sector store: a log of (sector, contents) writes, most recent
first.  Modelled from the spec (§6): synchronous fixed-size block
read/write device. -/
abbrev Disk := List (Int × List Int)

namespace Disk

/-- Modelled from the spec (§6): `WriteSector(sectorNumber, buffer)`. -/
def WriteSector (d : Disk) (s : Int) (data : List Int) : Disk :=
  (s, data) :: d

/-- Modelled from the spec (§6): `ReadSector(sectorNumber, buffer)`; a
sector never written reads back as unspecified junk, modelled as zeros. -/
def ReadSector (d : Disk) (s : Int) : List Int :=
  match List.find? (fun p => p.1 == s) d with
  | some p => p.2
  | none => List.replicate NumSectorForBlock.toNat 0

end Disk

/-- The in-memory file header record (filehdr.h layout, spec §3/§6):
`DirectSectors` has length `NumDirect`, `IndirectSectors` length
`NumIndirect`. -/
structure FileHeader where
  numBytes : Int
  numSectors : Int
  numDirectSectors : Int
  numIndirectSectors : Int
  DirectSectors : List Int
  IndirectSectors : List Int
deriving DecidableEq, Repr

/-- Instance search does not find this product instance on its own;
assemble it explicitly so that `decide` can evaluate `Allocate` results. -/
instance : DecidableEq (Bool × FileHeader × List Bool × Disk) :=
  @instDecidableEqProd _ _ instDecidableEqBool inferInstance

/-- `FileHeader::FileHeader` (filehdr.cc:39-46): every counter is `-1`
and both arrays are filled with the `-1` sentinel. -/
def FileHeader.init : FileHeader :=
  { numBytes := -1
    numSectors := -1
    numDirectSectors := -1
    numIndirectSectors := -1
    DirectSectors := List.replicate NumDirect.toNat (-1)
    IndirectSectors := List.replicate NumIndirect.toNat (-1) }

/-- The direct-sector loop of `FileHeader::Allocate` (filehdr.cc:85-90):
call `FindAndSet` `n` times, collecting the returned sector numbers in
order; `none` models the `ASSERT(... >= 0)` firing on a `-1` return. -/
def allocSectors : Nat → List Bool → Option (List Int × List Bool)
  | 0, bm => some ([], bm)
  | n + 1, bm =>
    let p := Bitmap.FindAndSet bm
    if p.1 < 0 then none
    else
      match allocSectors n p.2 with
      | some (ss, bm') => some (p.1 :: ss, bm')
      | none => none

/-- The indirect-sector loop of `FileHeader::Allocate` (filehdr.cc:93-103):
for each of `n` indirection blocks, allocate the block's own sector, then
`NumSectorForBlock` data sectors, write their numbers into the block on
disk, and continue.  Returns the block sectors in order. -/
def allocIndirect : Nat → List Bool → Disk → Option (List Int × List Bool × Disk)
  | 0, bm, dsk => some ([], bm, dsk)
  | n + 1, bm, dsk =>
    let p := Bitmap.FindAndSet bm
    if p.1 < 0 then none
    else
      match allocSectors NumSectorForBlock.toNat p.2 with
      | none => none
      | some (blockData, bm2) =>
        match allocIndirect n bm2 (Disk.WriteSector dsk p.1 blockData) with
        | some (ss, bm3, dsk') => some (p.1 :: ss, bm3, dsk')
        | none => none

/-- Overwrite the first `new.length` entries of `old`, keeping the rest:
the effect of the C++ loops that assign `DirectSectors[i]` /
`IndirectSectors[i]` only for the indices they visit. -/
def setPrefix (old new : List Int) : List Int :=
  new ++ old.drop new.length

/-- `FileHeader::Allocate` (filehdr.cc:69-106).  Returns
`some (result, header, bitmap, disk)`; `none` models a fatal `ASSERT`.
Note the source sets `numBytes`/`numSectors` before the free-space
check, so they are updated even on the `false` return. -/
def FileHeader.Allocate (hdr : FileHeader) (bm : List Bool) (dsk : Disk)
    (fileSize : Int) : Option (Bool × FileHeader × List Bool × Disk) :=
  let nB := fileSize
  let nS := divRoundUp fileSize SectorSize
  if Bitmap.NumClear bm < nS then
    some (false, { hdr with numBytes := nB, numSectors := nS }, bm, dsk)
  else
    let nds := if nS > NumDirect then NumDirect else nS
    let nis := if nS > NumDirect then divRoundUp (nS - NumDirect) NumSectorForBlock else 0
    match allocSectors nds.toNat bm with
    | none => none
    | some (ds, bm1) =>
      match allocIndirect nis.toNat bm1 dsk with
      | none => none
      | some (bs, bm2, dsk') =>
        some (true,
          { numBytes := nB
            numSectors := nS
            numDirectSectors := nds
            numIndirectSectors := nis
            DirectSectors := setPrefix hdr.DirectSectors ds
            IndirectSectors := setPrefix hdr.IndirectSectors bs },
          bm2, dsk')

/-- A run of `ASSERT(freeMap->Test(s)); freeMap->Clear(s)` over a list of
sectors, as in `FileHeader::Deallocate` (filehdr.cc:116-119, 127-130);
`none` models the assertion firing. -/
def clearSectors : List Int → List Bool → Option (List Bool)
  | [], bm => some bm
  | s :: ss, bm =>
    if Bitmap.Test bm s then clearSectors ss (Bitmap.Clear bm s) else none

/-- The indirect loop of `FileHeader::Deallocate` (filehdr.cc:122-133):
for each indirection-block sector, assert it is marked, read the block
from disk, clear all `NumSectorForBlock` data sectors it names, then
clear the block sector itself. -/
def deallocIndirect : List Int → List Bool → Disk → Option (List Bool)
  | [], bm, _ => some bm
  | s :: ss, bm, dsk =>
    if Bitmap.Test bm s then
      match clearSectors (Disk.ReadSector dsk s) bm with
      | none => none
      | some bm1 => deallocIndirect ss (Bitmap.Clear bm1 s) dsk
    else none

/-- `FileHeader::Deallocate` (filehdr.cc:114-134). -/
def FileHeader.Deallocate (hdr : FileHeader) (bm : List Bool) (dsk : Disk) :
    Option (List Bool) :=
  match clearSectors (hdr.DirectSectors.take hdr.numDirectSectors.toNat) bm with
  | none => none
  | some bm1 =>
    deallocIndirect (hdr.IndirectSectors.take hdr.numIndirectSectors.toNat) bm1 dsk

/-- The sentinel scan of `FileHeader::FetchFrom` (filehdr.cc:145-149):
count entries before the first `-1`, stopping after `NumIndirect`. -/
def scanIndirect : List Int → Nat
  | [] => 0
  | x :: xs => if x = -1 then 0 else scanIndirect xs + 1

/-- `FileHeader::FetchFrom` (filehdr.cc:142-152), as the pure decode step
applied to the raw record read from the header's sector: recompute
`numIndirectSectors` by the sentinel scan and `numDirectSectors` from it. -/
def FileHeader.FetchFrom (raw : FileHeader) : FileHeader :=
  let nis : Int := (scanIndirect (raw.IndirectSectors.take NumIndirect.toNat) : Int)
  { raw with
    numIndirectSectors := nis
    numDirectSectors := if nis ≠ 0 then NumDirect else raw.numSectors }

/-- `FileHeader::ByteToSector` (filehdr.cc:182-195).  Array reads are
modelled with `getD` and a junk default (out-of-range C++ access is
undefined; claim C10 shows the guarded indices stay in range). -/
def FileHeader.ByteToSector (hdr : FileHeader) (dsk : Disk) (offset : Int) : Int :=
  if offset < SectorSize * hdr.numDirectSectors then
    hdr.DirectSectors.getD (offset / SectorSize).toNat (-1)
  else
    let ib := (offset - SectorSize * hdr.numDirectSectors) / (SectorSize * NumSectorForBlock)
    let blk := Disk.ReadSector dsk (hdr.IndirectSectors.getD ib.toNat (-1))
    blk.getD (((offset - SectorSize * hdr.numDirectSectors) / SectorSize) % NumSectorForBlock).toNat (-1)

/-- `FileHeader::FileLength` (filehdr.cc:201-203). -/
def FileHeader.FileLength (hdr : FileHeader) : Int :=
  hdr.numBytes

/-- A bitmap of 50 sectors, all free. -/
def bm50 : List Bool := List.replicate 50 false

/-- Header produced by allocating a `5 * 128`-byte file from `bm50`. -/
def hdrA : FileHeader :=
  { numBytes := 640, numSectors := 5, numDirectSectors := 5, numIndirectSectors := 0
    DirectSectors := [0, 1, 2, 3, 4, -1, -1, -1, -1, -1]
    IndirectSectors := List.replicate 18 (-1) }

/-- Bitmap after allocating a `5 * 128`-byte file from `bm50`. -/
def bmA : List Bool := List.replicate 5 true ++ List.replicate 45 false

/-- Header produced by allocating a `15 * 128`-byte file from `bm50`. -/
def hdrB : FileHeader :=
  { numBytes := 1920, numSectors := 15, numDirectSectors := 10, numIndirectSectors := 1
    DirectSectors := [0, 1, 2, 3, 4, 5, 6, 7, 8, 9]
    IndirectSectors := 10 :: List.replicate 17 (-1) }

/-- The indirection block persisted for the `15 * 128`-byte file: 32 data
sectors 11..42. -/
def blkB : List Int := (List.range 32).map (fun j => (11 + j : Int))

/-- Bitmap after allocating a `15 * 128`-byte file from `bm50`. -/
def bmB : List Bool := List.replicate 43 true ++ List.replicate 7 false

/-- `AllocOut bm tt bm'` says a sequence of `FindAndSet` calls starting
from bitmap `bm` allocated exactly the sectors listed in `tt` (each clear
in `bm`, pairwise distinct) and ended in bitmap `bm'`.  The description
is order-insensitive, which lets the deallocation loops, which clear the
same sectors in a different order, be driven by the same predicate. -/
structure AllocOut (bm : List Bool) (tt : List Int) (bm' : List Bool) : Prop where
  nodup : (tt.map Int.toNat).Nodup
  mem : ∀ s ∈ tt, 0 ≤ s ∧ s.toNat < bm.length ∧ bm[s.toNat]? = some false
  len : bm'.length = bm.length
  look : ∀ j : Nat, bm'[j]? = if j ∈ tt.map Int.toNat then some true else bm[j]?

/-- The sectors consumed by the indirect loop of `Allocate`, in
allocation order: each block's own sector, then its 32 data sectors. -/
def flatAlloc : List (Int × List Int) → List Int
  | [] => []
  | p :: ps => p.1 :: (p.2 ++ flatAlloc ps)

/-- The sectors cleared by the indirect loop of `Deallocate`, in clearing
order: each block's 32 data sectors, then the block's own sector. -/
def flatClear : List (Int × List Int) → List Int
  | [] => []
  | p :: ps => p.2 ++ p.1 :: flatClear ps

/-- Header produced by allocating a 1408-byte (11-sector) file from `bm50`. -/
def hdrC : FileHeader :=
  { numBytes := 1408, numSectors := 11, numDirectSectors := 10, numIndirectSectors := 1
    DirectSectors := [0, 1, 2, 3, 4, 5, 6, 7, 8, 9]
    IndirectSectors := 10 :: List.replicate 17 (-1) }

/-- Modelled from the spec: `FileNameMaxLen` is a configured constant
whose value is not fixed under src/; the traditional Nachos value 9 is
adopted.  No claim's truth depends on the exact value. -/
def FileNameMaxLen : Nat := 9

/-- The NUL character that pads and terminates C name buffers. -/
def nulChar : Char := Char.ofNat 0

/-- One fixed-width directory record (directory.h layout, spec §3/§6). -/
structure DirectoryEntry where
  inUse : Bool
  isDirectory : Bool
  sector : Int
  name : List Char
deriving DecidableEq, Repr

/-- `DirectoryEntry::DirectoryEntry` (directory.cc:28-33): not in use,
not a directory, sector `-1`, name buffer zeroed. -/
def DirectoryEntry.init : DirectoryEntry :=
  { inUse := false
    isDirectory := false
    sector := -1
    name := List.replicate FileNameMaxLen nulChar }

/-- `strncmp(a, b, n) == 0` on C strings/buffers: compare at most `n`
characters, stopping early at a common NUL; the end of either list reads
as NUL. -/
def cstrEqN : Nat → List Char → List Char → Bool
  | 0, _, _ => true
  | n + 1, a, b =>
    if a.headD nulChar = b.headD nulChar then
      if a.headD nulChar = nulChar then true else cstrEqN n a.tail b.tail
    else false

/-- `strncpy(dst, src, n)` into a fresh `n`-byte buffer: copy up to `n`
characters of the source string (stopping at a NUL), pad the rest of the
buffer with NUL. -/
def padBuf (n : Nat) (nm : List Char) : List Char :=
  (nm.takeWhile (fun c => c != nulChar)).take n
    ++ List.replicate (n - ((nm.takeWhile (fun c => c != nulChar)).take n).length) nulChar

/-- The name buffer `Directory::Add` stores for a lookup name
(directory.cc:127, `strncpy(table[i].name, name, FileNameMaxLen)`). -/
def padName (nm : List Char) : List Char :=
  padBuf FileNameMaxLen nm

/-- The per-entry match test of `Directory::FindIndex`
(directory.cc:86): `table[i].inUse && !strncmp(table[i].name, name,
FileNameMaxLen)`. -/
def entryMatches (e : DirectoryEntry) (nm : List Char) : Bool :=
  e.inUse && cstrEqN FileNameMaxLen e.name nm

/-- The scan of `Directory::FindIndex` (directory.cc:85-89), returning
the position of the first matching in-use entry. -/
def findIdxLoop (nm : List Char) : List DirectoryEntry → Option Nat
  | [] => none
  | e :: es => if entryMatches e nm then some 0 else (findIdxLoop nm es).map Nat.succ

/-- The first-free-slot claim loop of `Directory::Add`
(directory.cc:124-132): claim the first not-in-use slot with the new
entry, reporting whether a slot was found. -/
def addLoop (eNew : DirectoryEntry) : List DirectoryEntry → Bool × List DirectoryEntry
  | [] => (false, [])
  | e :: es =>
    if !e.inUse then (true, eNew :: es)
    else
      let r := addLoop eNew es
      (r.1, e :: r.2)

/-- The in-memory directory: a table of `tableSize` entries (the C++
`tableSize` field always equals the table's length). -/
structure Directory where
  table : List DirectoryEntry
deriving DecidableEq, Repr

/-- `Directory::Directory(size)` (directory.cc:44-47): `size` fresh
entries. -/
def Directory.create (size : Nat) : Directory :=
  ⟨List.replicate size DirectoryEntry.init⟩

/-- `Directory::FindIndex` (directory.cc:84-92): index of the matching
entry, or `-1`. -/
def Directory.FindIndex (d : Directory) (nm : List Char) : Int :=
  match findIdxLoop nm d.table with
  | some i => (i : Int)
  | none => -1

/-- `Directory::Find` (directory.cc:102-108): `FindIndex`, then project
the matched entry's sector; `-1` when absent. -/
def Directory.Find (d : Directory) (nm : List Char) : Int :=
  match findIdxLoop nm d.table with
  | some i => (d.table.getD i DirectoryEntry.init).sector
  | none => -1

/-- `Directory::Add` (directory.cc:120-135): fail on a duplicate name,
else claim the first free slot with
`(inUse := true, strncpy'd name, sector, isDirectory)`; fail if no free
slot exists. -/
def Directory.Add (d : Directory) (nm : List Char) (newSector : Int) (isDirectory : Bool) :
    Bool × Directory :=
  if d.FindIndex nm != -1 then (false, d)
  else
    let r := addLoop
      { inUse := true, isDirectory := isDirectory, sector := newSector, name := padName nm }
      d.table
    (r.1, ⟨r.2⟩)

/-- `Directory::Remove` (directory.cc:144-153): fail when the name is
absent; else clear the matched slot's in-use flag and zero its name
buffer (`memset`), leaving its other fields - and every other slot, and
any referenced file sectors or bitmap bits - untouched. -/
def Directory.Remove (d : Directory) (nm : List Char) : Bool × Directory :=
  match findIdxLoop nm d.table with
  | none => (false, d)
  | some i =>
    let e := d.table.getD i DirectoryEntry.init
    (true,
      ⟨d.table.set i { e with inUse := false, name := List.replicate FileNameMaxLen nulChar }⟩)

/-- The lookup name of spec §8 scenario A. -/
def nmFoo : List Char := ['f', 'o', 'o', '.', 't', 'x', 't']

/-- A fresh 10-entry directory (spec §8 scenario A). -/
def d10 : Directory := Directory.create 10

/-- A 3-entry directory holding one entry, for the C8 witness. -/
def dRem : Directory := ((Directory.create 3).Add nmFoo 17 false).2

/-- One mutating `Directory` call: an `Add` or a `Remove` with arbitrary
arguments. -/
inductive DirStep : Directory → Directory → Prop where
  | add (d : Directory) (nm : List Char) (sec : Int) (b : Bool) : DirStep d (d.Add nm sec b).2
  | remove (d : Directory) (nm : List Char) : DirStep d (d.Remove nm).2

/-- Directories reachable from a freshly constructed `n`-entry directory
by `Add`/`Remove` calls. -/
inductive DirReachable (n : Nat) : Directory → Prop where
  | base : DirReachable n (Directory.create n)
  | step {d d' : Directory} : DirReachable n d → DirStep d d' → DirReachable n d'

/-- Every slot not in use has an all-NUL name buffer. -/
def freeSlotsClean (d : Directory) : Prop :=
  ∀ e ∈ d.table, e.inUse = false → e.name = List.replicate FileNameMaxLen nulChar

/-! ## Theorems -/

/-- C1 counterexample: on a bitmap with no free sector, `Allocate` for a
128-byte file returns `false` yet has already overwritten the header's
`numBytes` (and `numSectors`): the fresh header held `-1` there. -/
theorem allocate_failure_mutates_header :
    (FileHeader.Allocate FileHeader.init [] [] 128).map
        (fun r => (r.1, r.2.1.numBytes, r.2.1.numSectors)) = some (false, 128, 1)
      ∧ FileHeader.init.numBytes = -1 ∧ FileHeader.init.numSectors = -1 := by
  decide

/-- C1 (amended): when the bitmap's free-sector count is below
`numSectors = divRoundUp fileSize SectorSize`, `Allocate` returns `false`,
leaves the bitmap, the disk and all header fields except `numBytes` and
`numSectors` unmodified, but sets `numBytes := fileSize` and
`numSectors := divRoundUp fileSize SectorSize` even on this failure path. -/
theorem allocate_failure_frame (hdr : FileHeader) (bm : List Bool) (dsk : Disk)
    (fileSize : Int)
    (h : Bitmap.NumClear bm < divRoundUp fileSize SectorSize) :
    hdr.Allocate bm dsk fileSize =
      some (false,
        { hdr with numBytes := fileSize, numSectors := divRoundUp fileSize SectorSize },
        bm, dsk) := by
  simp [FileHeader.Allocate, h]

/-- Witness for `allocate_failure_frame` at the empty bitmap, a fresh
header and `fileSize = 128`. -/
theorem allocate_failure_frame_witness :
    Bitmap.NumClear [] < divRoundUp 128 SectorSize
      ∧ FileHeader.Allocate FileHeader.init [] [] 128 =
          some (false,
            { FileHeader.init with numBytes := 128, numSectors := divRoundUp 128 SectorSize },
            [], []) :=
  ⟨by decide, allocate_failure_frame FileHeader.init [] [] 128 (by decide)⟩

/-- C2: the code contradicts its own assertion comment ("since we checked
that there was enough free space, we expect this to succeed").  With
exactly 11 free sectors and an 11-sector file the free-space check
`NumClear() < numSectors` passes, yet the over-allocating indirect loop
(1 block sector + 32 data sectors beyond the 10 direct) exhausts the
bitmap, `FindAndSet` returns `-1`, and the `ASSERT` aborts (`none`)
instead of the claimed clean `true` return. -/
theorem allocate_assert_death :
    Bitmap.NumClear (List.replicate 11 false) ≥ divRoundUp 1408 SectorSize
      ∧ FileHeader.Allocate FileHeader.init (List.replicate 11 false) [] 1408 = none := by
  decide

/-- C4: with `SectorSize = 128`, `NumDirect = 10`, `NumSectorForBlock = 32`:
a `5 * 128`-byte file allocates exactly 5 direct sectors and no
indirection block (5 sectors marked); a `15 * 128`-byte file fills all 10
`DirectSectors` plus one `IndirectSectors` entry whose persisted
indirection block holds 32 freshly allocated data sectors, 43 sectors
marked in total, all 32 block entries allocated in the bitmap. -/
theorem allocate_scenarioB :
    FileHeader.Allocate FileHeader.init bm50 [] (5 * 128) = some (true, hdrA, bmA, [])
      ∧ bmA.count true = 5
      ∧ FileHeader.Allocate FileHeader.init bm50 [] (15 * 128) =
          some (true, hdrB, bmB, [(10, blkB)])
      ∧ bmB.count true = 43
      ∧ blkB.length = 32
      ∧ (∀ s ∈ blkB, Bitmap.Test bmB s = true) := by
  decide

theorem AllocOut.nil (bm : List Bool) : AllocOut bm [] bm :=
  ⟨List.nodup_nil, by simp, rfl, by simp⟩

theorem AllocOut.single {bm : List Bool} {i : Nat} (hlt : i < bm.length)
    (hclear : bm[i]? = some false) : AllocOut bm [(i : Int)] (bm.set i true) := by
  refine ⟨by simp, ?_, List.length_set .., ?_⟩
  · intro s hs
    simp only [List.mem_singleton] at hs
    subst hs
    exact ⟨Int.natCast_nonneg i, by simpa using hlt, by simpa using hclear⟩
  · intro j
    rcases eq_or_ne i j with h | h
    · subst h
      simp [List.getElem?_set_eq_of_lt _ hlt]
    · simp [List.getElem?_set_ne h, h, Ne.symm h]

theorem AllocOut.comp {bm bm1 bm2 : List Bool} {t1 t2 : List Int}
    (h1 : AllocOut bm t1 bm1) (h2 : AllocOut bm1 t2 bm2) :
    AllocOut bm (t1 ++ t2) bm2 := by
  have memOrig : ∀ s ∈ t2, 0 ≤ s ∧ s.toNat < bm.length ∧ bm[s.toNat]? = some false := by
    intro s hs
    obtain ⟨h0, hlt, hclr⟩ := h2.mem s hs
    have hlook := h1.look s.toNat
    rw [hclr] at hlook
    by_cases hm : s.toNat ∈ t1.map Int.toNat
    · simp [hm] at hlook
    · simp only [hm, if_false] at hlook
      exact ⟨h0, h1.len ▸ hlt, hlook.symm⟩
  have disj : ∀ j, j ∈ t1.map Int.toNat → j ∈ t2.map Int.toNat → False := by
    intro j hj1 hj2
    obtain ⟨s, hs, rfl⟩ := List.mem_map.mp hj2
    have hlook := h1.look s.toNat
    rw [(h2.mem s hs).2.2] at hlook
    simp [hj1] at hlook
  constructor
  · rw [List.map_append]
    refine List.Nodup.append h1.nodup h2.nodup ?_
    intro j hj1 hj2
    exact disj j hj1 hj2
  · intro s hs
    rcases List.mem_append.mp hs with h | h
    · exact h1.mem s h
    · exact memOrig s h
  · rw [h2.len, h1.len]
  · intro j
    have l1 := h1.look j
    have l2 := h2.look j
    by_cases hm2 : j ∈ t2.map Int.toNat
    · simp only [hm2, if_true] at l2
      simp [l2, List.map_append, List.mem_append, hm2]
    · simp only [hm2, if_false] at l2
      by_cases hm1 : j ∈ t1.map Int.toNat
      · simp only [hm1, if_true] at l1
        simp [l2, l1, List.map_append, List.mem_append, hm1]
      · simp only [hm1, if_false] at l1
        simp [l2, l1, List.map_append, List.mem_append, hm1, hm2]

theorem AllocOut.perm {bm bm' : List Bool} {tt tt' : List Int}
    (hp : tt.Perm tt') (h : AllocOut bm tt bm') : AllocOut bm tt' bm' := by
  refine ⟨(hp.map Int.toNat).nodup h.nodup, ?_, h.len, ?_⟩
  · intro s hs
    exact h.mem s (hp.mem_iff.mpr hs)
  · intro j
    rw [h.look j]
    have hiff : j ∈ tt.map Int.toNat ↔ j ∈ tt'.map Int.toNat := (hp.map Int.toNat).mem_iff
    by_cases hm : j ∈ tt.map Int.toNat
    · rw [if_pos hm, if_pos (hiff.mp hm)]
    · rw [if_neg hm, if_neg (fun hc => hm (hiff.mpr hc))]

/-- One deallocation step: the head of a pending allocation episode is
currently marked (so the `ASSERT(Test(...))` passes), and clearing it
leaves the rest of the episode pending. -/
theorem AllocOut.cons_clear {bm bmF : List Bool} {s : Int} {tt : List Int}
    (h : AllocOut bm (s :: tt) bmF) :
    Bitmap.Test bmF s = true ∧ AllocOut bm tt (Bitmap.Clear bmF s) := by
  obtain ⟨h0, hlt, hclr⟩ := h.mem s (List.mem_cons_self ..)
  have hmark : bmF[s.toNat]? = some true := by
    have := h.look s.toNat
    rw [if_pos (List.mem_map.mpr ⟨s, List.mem_cons_self .., rfl⟩)] at this
    exact this
  have hnd0 := h.nodup
  rw [List.map_cons, List.nodup_cons] at hnd0
  have hnd : s.toNat ∉ tt.map Int.toNat ∧ (tt.map Int.toNat).Nodup := hnd0
  constructor
  · simp only [Bitmap.Test, Bool.and_eq_true, decide_eq_true_eq]
    exact ⟨h0, by rw [List.getD_eq_getElem?_getD, hmark]; rfl⟩
  · refine ⟨hnd.2, fun x hx => h.mem x (List.mem_cons_of_mem _ hx), ?_, ?_⟩
    · rw [Bitmap.Clear, List.length_set, h.len]
    · intro j
      rw [Bitmap.Clear, List.getElem?_set]
      rcases eq_or_ne s.toNat j with hj | hj
      · subst hj
        rw [if_pos rfl, if_pos (h.len ▸ hlt), if_neg hnd.1, hclr]
      · rw [if_neg hj, h.look j]
        have : j ∈ (s :: tt).map Int.toNat ↔ j ∈ tt.map Int.toNat := by
          simp only [List.map_cons, List.mem_cons]
          exact ⟨fun hc => hc.resolve_left (fun he => hj he.symm), Or.inr⟩
        by_cases hm : j ∈ tt.map Int.toNat
        · rw [if_pos (this.mpr hm), if_pos hm]
        · rw [if_neg (fun hc => hm (this.mp hc)), if_neg hm]

/-- Clearing a prefix of a pending allocation episode succeeds and leaves
the suffix pending. -/
theorem clearSectors_of_allocOut {bm bmF : List Bool} {b : List Int} :
    ∀ (a : List Int), AllocOut bm (a ++ b) bmF →
      ∃ bmF1, clearSectors a bmF = some bmF1 ∧ AllocOut bm b bmF1 := by
  intro a
  induction a generalizing bmF with
  | nil => exact fun h => ⟨bmF, rfl, h⟩
  | cons s a' ih =>
    intro h
    obtain ⟨ht, h'⟩ := AllocOut.cons_clear (by simpa using h)
    obtain ⟨bmF1, hc, hout⟩ := ih h'
    exact ⟨bmF1, by rw [clearSectors, if_pos ht, hc], hout⟩

/-- An empty pending episode means the bitmap is back to the original. -/
theorem allocOut_nil_eq {bm bmF : List Bool} (h : AllocOut bm [] bmF) : bmF = bm := by
  refine List.ext_getElem? fun j => ?_
  have := h.look j
  simpa using this

/-- `findClear` returns the index of a clear bit within range. -/
theorem findClear_sound : ∀ (bm : List Bool) (i : Nat),
    Bitmap.findClear bm = some i → i < bm.length ∧ bm[i]? = some false := by
  intro bm
  induction bm with
  | nil => intro i h; simp [Bitmap.findClear] at h
  | cons b bs ih =>
    intro i h
    rw [Bitmap.findClear] at h
    by_cases hb : b
    · rw [if_pos hb] at h
      cases hfc : Bitmap.findClear bs with
      | none => rw [hfc] at h; simp at h
      | some i' =>
        rw [hfc] at h
        obtain rfl : i'.succ = i := Option.some.inj h
        obtain ⟨hlt, hget⟩ := ih i' hfc
        exact ⟨by simpa using hlt, by simpa using hget⟩
    · rw [if_neg hb] at h
      obtain rfl : (0 : Nat) = i := by simpa using h
      simp only [Bool.not_eq_true] at hb
      exact ⟨by simp, by simp [hb]⟩

/-- Soundness of the direct-allocation loop: a successful run performs an
allocation episode of exactly `n` sectors. -/
theorem allocSectors_sound : ∀ (n : Nat) (bm : List Bool) (ss : List Int) (bm' : List Bool),
    allocSectors n bm = some (ss, bm') → ss.length = n ∧ AllocOut bm ss bm' := by
  intro n
  induction n with
  | zero =>
    intro bm ss bm' h
    rw [allocSectors] at h
    simp only [Option.some.injEq, Prod.mk.injEq] at h
    obtain ⟨rfl, rfl⟩ := h
    exact ⟨rfl, AllocOut.nil bm⟩
  | succ n ih =>
    intro bm ss bm' h
    rw [allocSectors] at h
    cases hfc : Bitmap.findClear bm with
    | none => simp [Bitmap.FindAndSet, hfc] at h
    | some i =>
      simp only [Bitmap.FindAndSet, hfc] at h
      rw [if_neg (by simp)] at h
      cases hrec : allocSectors n (bm.set i true) with
      | none => rw [hrec] at h; simp at h
      | some q =>
        rw [hrec] at h
        obtain ⟨ss', bm''⟩ := q
        simp only [Option.some.injEq, Prod.mk.injEq] at h
        obtain ⟨rfl, rfl⟩ := h
        obtain ⟨hlen, hout⟩ := ih _ _ _ hrec
        obtain ⟨hlt, hget⟩ := findClear_sound bm i hfc
        exact ⟨by simp [hlen], (AllocOut.single hlt hget).comp hout⟩

theorem flatAlloc_perm_flatClear : ∀ (ps : List (Int × List Int)),
    (flatAlloc ps).Perm (flatClear ps) := by
  intro ps
  induction ps with
  | nil => exact List.Perm.refl _
  | cons p ps ih =>
    rw [flatAlloc, flatClear]
    exact ((List.Perm.append_left p.2 ih).cons p.1).trans List.perm_middle.symm

theorem keys_sublist_flatAlloc : ∀ (ps : List (Int × List Int)),
    (ps.map Prod.fst).Sublist (flatAlloc ps) := by
  intro ps
  induction ps with
  | nil => exact List.Sublist.refl _
  | cons p ps ih =>
    rw [List.map_cons, flatAlloc]
    exact (ih.trans (List.sublist_append_right p.2 _)).cons₂ p.1

/-- Soundness of the indirect-allocation loop: a successful run returns
the block sectors of a list of (block sector, block contents) pairs, the
disk extended by exactly those writes, and the bitmap transformed by an
allocation episode covering block and data sectors. -/
theorem allocIndirect_sound : ∀ (n : Nat) (bm : List Bool) (dsk : Disk)
    (bs : List Int) (bm' : List Bool) (dsk' : Disk),
    allocIndirect n bm dsk = some (bs, bm', dsk') →
    ∃ ps : List (Int × List Int), bs = ps.map Prod.fst ∧ bs.length = n ∧
      dsk' = ps.reverse ++ dsk ∧
      (∀ p ∈ ps, p.2.length = NumSectorForBlock.toNat) ∧
      AllocOut bm (flatAlloc ps) bm' := by
  intro n
  induction n with
  | zero =>
    intro bm dsk bs bm' dsk' h
    rw [allocIndirect] at h
    simp only [Option.some.injEq, Prod.mk.injEq] at h
    obtain ⟨rfl, rfl, rfl⟩ := h
    exact ⟨[], rfl, rfl, rfl, by simp, AllocOut.nil bm⟩
  | succ n ih =>
    intro bm dsk bs bm' dsk' h
    rw [allocIndirect] at h
    cases hfc : Bitmap.findClear bm with
    | none => simp [Bitmap.FindAndSet, hfc] at h
    | some i =>
      simp only [Bitmap.FindAndSet, hfc] at h
      rw [if_neg (by simp)] at h
      cases hdata : allocSectors NumSectorForBlock.toNat (bm.set i true) with
      | none => rw [hdata] at h; simp at h
      | some q =>
        rw [hdata] at h
        obtain ⟨blockData, bm2⟩ := q
        have h2 : (match allocIndirect n bm2 (Disk.WriteSector dsk (i : Int) blockData) with
            | some (ss, bm3, dsk3) => some ((i : Int) :: ss, bm3, dsk3)
            | none => none) = some (bs, bm', dsk') := h
        cases hrec : allocIndirect n bm2 (Disk.WriteSector dsk i blockData) with
        | none => rw [hrec] at h2; simp at h2
        | some r =>
          rw [hrec] at h2
          obtain ⟨ss, bm3, dsk3⟩ := r
          have h : (i : Int) :: ss = bs ∧ bm3 = bm' ∧ dsk3 = dsk' := by
            simpa using h2
          obtain ⟨rfl, rfl, rfl⟩ := h
          obtain ⟨ps, rfl, hlen, rfl, hblen, hout⟩ := ih _ _ _ _ _ hrec
          obtain ⟨hdlen, hdout⟩ := allocSectors_sound _ _ _ _ hdata
          obtain ⟨hlt, hget⟩ := findClear_sound bm i hfc
          refine ⟨((i : Int), blockData) :: ps, rfl, by simp [hlen], ?_, ?_, ?_⟩
          · rw [List.reverse_cons, List.append_assoc]
            rfl
          · intro p hp
            rcases List.mem_cons.mp hp with rfl | hp'
            · exact hdlen
            · exact hblen p hp'
          · have h1 : AllocOut bm ([(i : Int)] ++ blockData) bm2 :=
              (AllocOut.single hlt hget).comp hdout
            have := h1.comp hout
            rw [flatAlloc]
            simpa [List.append_assoc] using this

/-- Any sector of a pending allocation episode is currently marked. -/
theorem AllocOut.test_of_mem {bm bmF : List Bool} {tt : List Int} {s : Int}
    (h : AllocOut bm tt bmF) (hs : s ∈ tt) : Bitmap.Test bmF s = true := by
  obtain ⟨h0, _, _⟩ := h.mem s hs
  have hmark : bmF[s.toNat]? = some true := by
    have := h.look s.toNat
    rw [if_pos (List.mem_map.mpr ⟨s, hs, rfl⟩)] at this
    exact this
  simp only [Bitmap.Test, Bool.and_eq_true, decide_eq_true_eq]
  exact ⟨h0, by rw [List.getD_eq_getElem?_getD, hmark]; rfl⟩

/-- In a write log whose keys are distinct, looking up the key of a
logged pair finds exactly that pair. -/
theorem find_key : ∀ (ws dsk : Disk) (p : Int × List Int), p ∈ ws →
    (ws.map Prod.fst).Nodup →
    List.find? (fun q => q.1 == p.1) (ws ++ dsk) = some p := by
  intro ws
  induction ws with
  | nil => intro dsk p hp _; cases hp
  | cons w ws ih =>
    intro dsk p hp hnd
    rw [List.map_cons, List.nodup_cons] at hnd
    rcases List.mem_cons.mp hp with rfl | hp'
    · rw [List.cons_append]
      exact List.find?_cons_of_pos _ (by simp)
    · have hne : w.1 ≠ p.1 := fun he => hnd.1 (he ▸ List.mem_map.mpr ⟨p, hp', rfl⟩)
      rw [List.cons_append, List.find?_cons_of_neg _ (by simp [hne]), ih dsk p hp' hnd.2]

/-- Reading back one of a batch of writes with distinct keys returns the
written contents, whatever the previous disk contents were. -/
theorem readSector_of_writes {ps : List (Int × List Int)} {dsk : Disk}
    {p : Int × List Int} (hp : p ∈ ps) (hnd : (ps.map Prod.fst).Nodup) :
    Disk.ReadSector (ps.reverse ++ dsk) p.1 = p.2 := by
  rw [Disk.ReadSector,
    find_key ps.reverse dsk p (List.mem_reverse.mpr hp)
      (by rw [List.map_reverse]; exact List.nodup_reverse.mpr hnd)]

/-- The indirect loop of `Deallocate`, run over the block sectors of a
pending episode in clearing order with the written blocks readable from
disk, restores the original bitmap. -/
theorem deallocIndirect_spec : ∀ (ps : List (Int × List Int)) (bm bmF : List Bool) (dsk : Disk),
    AllocOut bm (flatClear ps) bmF →
    (∀ p ∈ ps, Disk.ReadSector dsk p.1 = p.2) →
    deallocIndirect (ps.map Prod.fst) bmF dsk = some bm := by
  intro ps
  induction ps with
  | nil =>
    intro bm bmF dsk h _
    rw [List.map_nil, deallocIndirect, allocOut_nil_eq (show AllocOut bm [] bmF from h)]
  | cons p ps ih =>
    intro bm bmF dsk h hread
    rw [flatClear] at h
    have ht : Bitmap.Test bmF p.1 = true :=
      h.test_of_mem (List.mem_append.mpr (Or.inr (List.mem_cons_self ..)))
    obtain ⟨bmF1, hclr, hout1⟩ := clearSectors_of_allocOut p.2 h
    obtain ⟨_, hout2⟩ := AllocOut.cons_clear hout1
    rw [List.map_cons, deallocIndirect, if_pos ht, hread p (List.mem_cons_self ..), hclr]
    exact ih bm _ dsk hout2 (fun q hq => hread q (List.mem_cons_of_mem _ hq))

/-- C3: a successful `Allocate` (any file size, covering both the purely
direct range and sizes needing indirection blocks) followed immediately
by `Deallocate` on the same bitmap restores the bitmap exactly to its
pre-allocation state (hence the free-sector count), with every
`ASSERT(Test(...))` passing, so no sector allocated by the call stays
marked and no sector is cleared twice. -/
theorem allocate_deallocate_roundtrip (hdr : FileHeader) (bm : List Bool) (dsk : Disk)
    (fileSize : Int) (hdr' : FileHeader) (bm' : List Bool) (dsk' : Disk)
    (h : hdr.Allocate bm dsk fileSize = some (true, hdr', bm', dsk')) :
    hdr'.Deallocate bm' dsk' = some bm := by
  simp only [FileHeader.Allocate] at h
  by_cases hck : Bitmap.NumClear bm < divRoundUp fileSize SectorSize
  · rw [if_pos hck] at h
    simp at h
  · rw [if_neg hck] at h
    set nS := divRoundUp fileSize SectorSize with hnS
    set nds := if nS > NumDirect then NumDirect else nS with hnds
    set nis := if nS > NumDirect then divRoundUp (nS - NumDirect) NumSectorForBlock else 0 with hnis
    cases hds : allocSectors nds.toNat bm with
    | none => rw [hds] at h; simp at h
    | some q =>
      rw [hds] at h
      obtain ⟨ds, bm1⟩ := q
      have h2 : (match allocIndirect nis.toNat bm1 dsk with
          | none => none
          | some (bs, bm2, dsk2) =>
            some (true,
              { numBytes := fileSize, numSectors := nS, numDirectSectors := nds,
                numIndirectSectors := nis,
                DirectSectors := setPrefix hdr.DirectSectors ds,
                IndirectSectors := setPrefix hdr.IndirectSectors bs },
              bm2, dsk2)) = some (true, hdr', bm', dsk') := h
      cases hbs : allocIndirect nis.toNat bm1 dsk with
      | none => rw [hbs] at h2; simp at h2
      | some r =>
        rw [hbs] at h2
        obtain ⟨bs, bm2, dsk2⟩ := r
        simp only [Option.some.injEq, Prod.mk.injEq, true_and] at h2
        obtain ⟨hh, rfl, rfl⟩ := h2
        subst hh
        obtain ⟨hdsl, hdsout⟩ := allocSectors_sound _ _ _ _ hds
        obtain ⟨ps, rfl, hbsl, rfl, _, hbsout⟩ := allocIndirect_sound _ _ _ _ _ _ hbs
        have hAll : AllocOut bm (ds ++ flatClear ps) bm2 :=
          AllocOut.perm (List.Perm.append_left ds (flatAlloc_perm_flatClear ps))
            (hdsout.comp hbsout)
        have hkeys : ((ps.map Prod.fst).map Int.toNat).Nodup := by
          have hsub : ((ps.map Prod.fst).map Int.toNat).Sublist
              ((ds ++ flatAlloc ps).map Int.toNat) :=
            ((keys_sublist_flatAlloc ps).map Int.toNat).trans
              (by rw [List.map_append]; exact List.sublist_append_right ..)
          exact hsub.nodup (hdsout.comp hbsout).nodup
        have hkeysInt : (ps.map Prod.fst).Nodup := List.Nodup.of_map Int.toNat hkeys
        have htake1 : (setPrefix hdr.DirectSectors ds).take nds.toNat = ds := by
          rw [setPrefix, ← hdsl, List.take_left]
        have htake2 : (setPrefix hdr.IndirectSectors (ps.map Prod.fst)).take nis.toNat
            = ps.map Prod.fst := by
          rw [setPrefix, ← hbsl, List.take_left]
        simp only [FileHeader.Deallocate]
        rw [htake1, htake2]
        obtain ⟨bmF1, hc, hout⟩ := clearSectors_of_allocOut ds hAll
        rw [hc]
        exact deallocIndirect_spec ps bm bmF1 _ hout
          (fun p hp => readSector_of_writes hp hkeysInt)

/-- Witness for `allocate_deallocate_roundtrip`: an 11-sector (1408-byte)
file, which exercises both the direct array and one indirection block,
allocated from 50 free sectors and then deallocated. -/
theorem allocate_deallocate_roundtrip_witness :
    FileHeader.Allocate FileHeader.init bm50 [] 1408 = some (true, hdrC, bmB, [(10, blkB)])
      ∧ FileHeader.Deallocate hdrC bmB [(10, blkB)] = some bm50 :=
  ⟨by decide,
   allocate_deallocate_roundtrip FileHeader.init bm50 [] 1408 hdrC bmB [(10, blkB)] (by decide)⟩

/-- `divRoundUp` rounds up: `n ≤ SectorSize * divRoundUp n SectorSize`. -/
theorem le_mul_divRoundUp_sector (n : Int) : n ≤ SectorSize * divRoundUp n SectorSize := by
  simp only [divRoundUp, SectorSize]
  by_cases hm : n % 128 > 0
  · rw [if_pos hm]; omega
  · rw [if_neg hm]; omega

/-- `divRoundUp` rounds up: `n ≤ NumSectorForBlock * divRoundUp n NumSectorForBlock`. -/
theorem le_mul_divRoundUp_block (n : Int) : n ≤ NumSectorForBlock * divRoundUp n NumSectorForBlock := by
  simp only [divRoundUp, NumSectorForBlock]
  by_cases hm : n % 32 > 0
  · rw [if_pos hm]; omega
  · rw [if_neg hm]; omega

/-- C10: for a header produced by a successful `Allocate` and any offset
with `0 ≤ offset < numBytes`, `ByteToSector`'s direct-branch index stays
below `numDirectSectors`, and in the indirect branch the indirection-block
index is non-negative, below `numIndirectSectors`, and selects an
`IndirectSectors` entry distinct from the `-1` sentinel. -/
theorem byteToSector_inbounds (hdr : FileHeader) (bm : List Bool) (dsk : Disk)
    (fileSize : Int) (hdr' : FileHeader) (bm' : List Bool) (dsk' : Disk) (offset : Int)
    (hA : hdr.Allocate bm dsk fileSize = some (true, hdr', bm', dsk'))
    (h0 : 0 ≤ offset) (hlt : offset < hdr'.numBytes) :
    (offset < SectorSize * hdr'.numDirectSectors →
      0 ≤ offset / SectorSize ∧ offset / SectorSize < hdr'.numDirectSectors)
    ∧ (¬offset < SectorSize * hdr'.numDirectSectors →
        0 ≤ (offset - SectorSize * hdr'.numDirectSectors) / (SectorSize * NumSectorForBlock)
        ∧ (offset - SectorSize * hdr'.numDirectSectors) / (SectorSize * NumSectorForBlock)
            < hdr'.numIndirectSectors
        ∧ hdr'.IndirectSectors.getD
            ((offset - SectorSize * hdr'.numDirectSectors) /
              (SectorSize * NumSectorForBlock)).toNat (-1) ≠ -1) := by
  simp only [FileHeader.Allocate] at hA
  by_cases hck : Bitmap.NumClear bm < divRoundUp fileSize SectorSize
  · rw [if_pos hck] at hA
    simp at hA
  · rw [if_neg hck] at hA
    set nS := divRoundUp fileSize SectorSize with hnS
    set nds := if nS > NumDirect then NumDirect else nS with hnds
    set nis := if nS > NumDirect then divRoundUp (nS - NumDirect) NumSectorForBlock else 0 with hnis
    cases hds : allocSectors nds.toNat bm with
    | none => rw [hds] at hA; simp at hA
    | some q =>
      rw [hds] at hA
      obtain ⟨ds, bm1⟩ := q
      have h2 : (match allocIndirect nis.toNat bm1 dsk with
          | none => none
          | some (bs, bm2, dsk2) =>
            some (true,
              { numBytes := fileSize, numSectors := nS, numDirectSectors := nds,
                numIndirectSectors := nis,
                DirectSectors := setPrefix hdr.DirectSectors ds,
                IndirectSectors := setPrefix hdr.IndirectSectors bs },
              bm2, dsk2)) = some (true, hdr', bm', dsk') := hA
      cases hbs : allocIndirect nis.toNat bm1 dsk with
      | none => rw [hbs] at h2; simp at h2
      | some r =>
        rw [hbs] at h2
        obtain ⟨bs, bm2, dsk2⟩ := r
        simp only [Option.some.injEq, Prod.mk.injEq, true_and] at h2
        obtain ⟨hh, rfl, rfl⟩ := h2
        obtain ⟨ps, rfl, hbsl, rfl, _, hbsout⟩ := allocIndirect_sound _ _ _ _ _ _ hbs
        have hnB : hdr'.numBytes = fileSize := by rw [← hh]
        have hnds2 : hdr'.numDirectSectors = nds := by rw [← hh]
        have hnis2 : hdr'.numIndirectSectors = nis := by rw [← hh]
        have hind : hdr'.IndirectSectors =
            List.map Prod.fst ps ++ hdr.IndirectSectors.drop (List.map Prod.fst ps).length := by
          rw [← hh]
          rfl
        have hkeyNonneg : ∀ s ∈ List.map Prod.fst ps, 0 ≤ s := fun s hs =>
          (hbsout.mem s ((keys_sublist_flatAlloc ps).subset hs)).1
        have hfS : fileSize ≤ SectorSize * nS := hnS ▸ le_mul_divRoundUp_sector fileSize
        rw [hnB] at hlt
        rw [hnds2, hnis2, hind]
        by_cases hgt : nS > NumDirect
        · rw [if_pos hgt] at hnds hnis
          have hrem : nS - NumDirect ≤ NumSectorForBlock * nis :=
            hnis ▸ le_mul_divRoundUp_block (nS - NumDirect)
          constructor
          · intro hdir
            rw [hnds] at hdir ⊢
            simp only [SectorSize, NumDirect] at hdir ⊢
            omega
          · intro hind2
            rw [hnds] at hind2 ⊢
            have hblt : (offset - SectorSize * NumDirect) / (SectorSize * NumSectorForBlock) < nis ∧
                0 ≤ (offset - SectorSize * NumDirect) / (SectorSize * NumSectorForBlock) := by
              simp only [SectorSize, NumDirect, NumSectorForBlock] at hind2 hfS hrem ⊢
              constructor <;> omega
            refine ⟨hblt.2, hblt.1, ?_⟩
            have hidx : ((offset - SectorSize * NumDirect) /
                (SectorSize * NumSectorForBlock)).toNat < (List.map Prod.fst ps).length := by
              rw [hbsl]
              omega
            rw [List.getD_append _ _ _ _ hidx, List.getD_eq_getElem _ _ hidx]
            have hmem := List.getElem_mem hidx
            have := hkeyNonneg _ hmem
            omega
        · rw [if_neg hgt] at hnds hnis
          constructor
          · intro hdir
            rw [hnds] at hdir ⊢
            simp only [SectorSize] at hdir ⊢
            constructor
            · omega
            · by_cases hpos : 0 < nS
              · omega
              · exfalso
                simp only [SectorSize] at hfS
                omega
          · intro hind2
            exfalso
            rw [hnds] at hind2
            simp only [SectorSize] at hind2 hfS
            omega

/-- Witness for `byteToSector_inbounds`: the 11-sector file allocated from
`bm50`, probed at offset 1300 (inside the indirection-block range). -/
theorem byteToSector_inbounds_witness :
    FileHeader.Allocate FileHeader.init bm50 [] 1408 = some (true, hdrC, bmB, [(10, blkB)])
      ∧ (0 : Int) ≤ 1300 ∧ (1300 : Int) < hdrC.numBytes
      ∧ ((((1300 : Int) < SectorSize * hdrC.numDirectSectors →
            0 ≤ (1300 : Int) / SectorSize ∧ (1300 : Int) / SectorSize < hdrC.numDirectSectors)
          ∧ (¬(1300 : Int) < SectorSize * hdrC.numDirectSectors →
              0 ≤ ((1300 : Int) - SectorSize * hdrC.numDirectSectors) /
                  (SectorSize * NumSectorForBlock)
              ∧ ((1300 : Int) - SectorSize * hdrC.numDirectSectors) /
                  (SectorSize * NumSectorForBlock) < hdrC.numIndirectSectors
              ∧ hdrC.IndirectSectors.getD
                  (((1300 : Int) - SectorSize * hdrC.numDirectSectors) /
                    (SectorSize * NumSectorForBlock)).toNat (-1) ≠ -1))) :=
  ⟨by decide, by decide, by decide,
   byteToSector_inbounds FileHeader.init bm50 [] 1408 hdrC bmB [(10, blkB)] 1300
     (by decide) (by decide) (by decide)⟩

/-- C5: `ByteToSector(offset)` returns `DirectSectors[offset / SectorSize]`
when `offset < SectorSize * numDirectSectors`, and otherwise reads the
indirection block at
`IndirectSectors[(offset - SectorSize*numDirectSectors) / (SectorSize*NumSectorForBlock)]`
from the store and returns its entry at index
`((offset - SectorSize*numDirectSectors)/SectorSize) % NumSectorForBlock`;
the translation is pure (its embedding returns only the sector number,
touching no header, bitmap, or store state). -/
theorem byteToSector_translation (hdr : FileHeader) (dsk : Disk) (offset : Int) :
    (offset < SectorSize * hdr.numDirectSectors →
      hdr.ByteToSector dsk offset = hdr.DirectSectors.getD (offset / SectorSize).toNat (-1))
    ∧ (¬offset < SectorSize * hdr.numDirectSectors →
        hdr.ByteToSector dsk offset =
          (Disk.ReadSector dsk (hdr.IndirectSectors.getD
            ((offset - SectorSize * hdr.numDirectSectors) /
              (SectorSize * NumSectorForBlock)).toNat (-1))).getD
            (((offset - SectorSize * hdr.numDirectSectors) / SectorSize) %
              NumSectorForBlock).toNat (-1)) := by
  constructor <;> intro h <;> simp [FileHeader.ByteToSector, h]

/-- Witness for `byteToSector_translation`: the 11-sector header `hdrC`
with its indirection block on disk, at offset 1300 (indirect branch). -/
theorem byteToSector_translation_witness :
    ¬(1300 : Int) < SectorSize * hdrC.numDirectSectors
      ∧ hdrC.ByteToSector [(10, blkB)] 1300 =
          (Disk.ReadSector [(10, blkB)] (hdrC.IndirectSectors.getD
            (((1300 : Int) - SectorSize * hdrC.numDirectSectors) /
              (SectorSize * NumSectorForBlock)).toNat (-1))).getD
            ((((1300 : Int) - SectorSize * hdrC.numDirectSectors) / SectorSize) %
              NumSectorForBlock).toNat (-1) :=
  ⟨by decide, (byteToSector_translation hdrC [(10, blkB)] 1300).2 (by decide)⟩

theorem scanIndirect_takeWhile : ∀ l : List Int,
    scanIndirect l = (l.takeWhile (fun x => x != -1)).length := by
  intro l
  induction l with
  | nil => rfl
  | cons x xs ih =>
    rw [scanIndirect]
    by_cases hx : x = -1
    · subst hx; simp [List.takeWhile_cons]
    · simp [List.takeWhile_cons, hx, ih]

/-- C6: the `FetchFrom` decode step recomputes `numIndirectSectors` as the
number of `IndirectSectors` entries preceding the first `-1` sentinel
(all `NumIndirect` of them if no sentinel occurs), sets
`numDirectSectors = NumDirect` exactly when that count is nonzero and
`numSectors` otherwise, and leaves every other field as read from disk —
regardless of the raw count fields in the record. -/
theorem fetchFrom_decode (raw : FileHeader) :
    (raw.FetchFrom).numIndirectSectors =
        (((raw.IndirectSectors.take NumIndirect.toNat).takeWhile (fun x => x != -1)).length : Int)
      ∧ (raw.FetchFrom).numDirectSectors =
          (if (raw.FetchFrom).numIndirectSectors ≠ 0 then NumDirect else raw.numSectors)
      ∧ (raw.FetchFrom).numBytes = raw.numBytes
      ∧ (raw.FetchFrom).numSectors = raw.numSectors
      ∧ (raw.FetchFrom).DirectSectors = raw.DirectSectors
      ∧ (raw.FetchFrom).IndirectSectors = raw.IndirectSectors := by
  refine ⟨?_, rfl, rfl, rfl, rfl, rfl⟩
  simp [FileHeader.FetchFrom, scanIndirect_takeWhile]

/-- The buffer `strncpy` stores for a name compares `strncmp`-equal to
that name (over the same length bound). -/
theorem cstrEqN_padBuf : ∀ (n : Nat) (nm : List Char), cstrEqN n (padBuf n nm) nm = true := by
  intro n
  induction n with
  | zero => intro nm; rfl
  | succ m ih =>
    intro nm
    cases nm with
    | nil =>
      rw [cstrEqN]
      simp [padBuf, List.replicate_succ]
    | cons c rest =>
      by_cases hc : c = nulChar
      · subst hc
        rw [cstrEqN]
        simp [padBuf, List.takeWhile_cons, List.replicate_succ]
      · have hpad : padBuf (m + 1) (c :: rest) = c :: padBuf m rest := by
          simp only [padBuf, List.takeWhile_cons]
          rw [if_pos (by simpa using hc), List.take_succ_cons]
          simp [Nat.succ_sub_succ]
        rw [hpad, cstrEqN]
        simp only [List.headD_cons, List.tail_cons]
        simpa [hc] using ih rest

/-- The `FindIndex` scan misses exactly when no entry matches. -/
theorem findIdxLoop_none_iff (nm : List Char) : ∀ es : List DirectoryEntry,
    findIdxLoop nm es = none ↔ ∀ e ∈ es, entryMatches e nm = false := by
  intro es
  induction es with
  | nil => simp [findIdxLoop]
  | cons e es ih =>
    rw [findIdxLoop]
    by_cases hm : entryMatches e nm
    · simp [hm]
    · simp only [Bool.not_eq_true] at hm
      simp [hm, ih]

/-- A successful `FindIndex` scan returns an in-range index whose entry
matches. -/
theorem findIdxLoop_some (nm : List Char) : ∀ (es : List DirectoryEntry) (i : Nat),
    findIdxLoop nm es = some i →
    i < es.length ∧ entryMatches (es.getD i DirectoryEntry.init) nm = true := by
  intro es
  induction es with
  | nil => intro i h; simp [findIdxLoop] at h
  | cons e es ih =>
    intro i h
    rw [findIdxLoop] at h
    by_cases hm : entryMatches e nm
    · rw [if_pos hm] at h
      obtain rfl : (0 : Nat) = i := Option.some.inj h
      exact ⟨by simp, by simpa using hm⟩
    · rw [if_neg hm] at h
      cases hf : findIdxLoop nm es with
      | none => rw [hf] at h; simp at h
      | some i' =>
        rw [hf] at h
        obtain rfl : i'.succ = i := Option.some.inj h
        obtain ⟨hlt, hmt⟩ := ih i' hf
        exact ⟨by simpa using hlt, by simpa using hmt⟩

/-- The `FindIndex` scan over a table whose prefix misses finds the first
matching entry right after that prefix. -/
theorem findIdxLoop_append (nm : List Char) : ∀ (a : List DirectoryEntry)
    (e : DirectoryEntry) (b : List DirectoryEntry),
    (∀ x ∈ a, entryMatches x nm = false) → entryMatches e nm = true →
    findIdxLoop nm (a ++ e :: b) = some a.length := by
  intro a
  induction a with
  | nil => intro e b _ hm; simp [findIdxLoop, hm]
  | cons x a ih =>
    intro e b ha hm
    rw [List.cons_append, findIdxLoop,
      if_neg (by rw [ha x (List.mem_cons_self ..)]; simp),
      ih e b (fun y hy => ha y (List.mem_cons_of_mem _ hy)) hm]
    rfl

/-- `Add`'s slot scan on a full table fails and changes nothing. -/
theorem addLoop_full (eNew : DirectoryEntry) : ∀ es : List DirectoryEntry,
    (∀ e ∈ es, e.inUse = true) → addLoop eNew es = (false, es) := by
  intro es
  induction es with
  | nil => intro _; rfl
  | cons e es ih =>
    intro h
    rw [addLoop, if_neg (by rw [h e (List.mem_cons_self ..)]; simp),
      ih (fun x hx => h x (List.mem_cons_of_mem _ hx))]

/-- `Add`'s slot scan on a table with a free slot claims the first free
slot. -/
theorem addLoop_free (eNew : DirectoryEntry) : ∀ es : List DirectoryEntry,
    (∃ e ∈ es, e.inUse = false) →
    ∃ a eFree b, es = a ++ eFree :: b ∧ (∀ x ∈ a, x.inUse = true) ∧ eFree.inUse = false ∧
      addLoop eNew es = (true, a ++ eNew :: b) := by
  intro es
  induction es with
  | nil => intro h; simp at h
  | cons e es ih =>
    intro h
    by_cases he : e.inUse
    · have : ∃ x ∈ es, x.inUse = false := by
        obtain ⟨x, hx, hxf⟩ := h
        rcases List.mem_cons.mp hx with rfl | hx'
        · rw [he] at hxf; cases hxf
        · exact ⟨x, hx', hxf⟩
      obtain ⟨a, eFree, b, rfl, ha, hf, hl⟩ := ih this
      refine ⟨e :: a, eFree, b, rfl, ?_, hf, ?_⟩
      · intro x hx
        rcases List.mem_cons.mp hx with rfl | hx'
        · exact he
        · exact ha x hx'
      · rw [addLoop, if_neg (by rw [he]; simp), hl]
        rfl
    · simp only [Bool.not_eq_true] at he
      exact ⟨[], e, es, rfl, by simp, he, by rw [addLoop, if_pos (by rw [he]; simp)]; rfl⟩

/-- Indexing an append at the length of the prefix returns the head of
the suffix. -/
theorem getD_append_length {α : Type} : ∀ (a : List α) (e : α) (b : List α) (dflt : α),
    (a ++ e :: b).getD a.length dflt = e := by
  intro a
  induction a with
  | nil => intro e b d; rfl
  | cons x a ih => intro e b d; simpa using ih e b d

/-- Setting an append at the length of the prefix replaces the head of
the suffix. -/
theorem set_append_length {α : Type} : ∀ (a : List α) (e : α) (b : List α) (x : α),
    (a ++ e :: b).set a.length x = a ++ x :: b := by
  intro a
  induction a with
  | nil => intro e b x; rfl
  | cons y a ih => intro e b x; simp [ih]

/-- C7: into a directory with a free slot and `name` absent, `Add`
succeeds and `Find(name)` then returns the stored sector; a second `Add`
of the same name fails and changes nothing; after a successful `Remove`
the name is gone (`Find` returns the `-1` sentinel) and a second `Remove`
fails; `Add` on a table whose every slot is in use (as after `tableSize`
successful insertions: each success fills exactly one slot, per the
in-use count conjunct) fails. -/
theorem directory_add_find_remove (d : Directory) (nm : List Char) (sec sec2 : Int)
    (b b2 : Bool)
    (hfree : ∃ e ∈ d.table, e.inUse = false)
    (habsent : d.FindIndex nm = -1) :
    (d.Add nm sec b).1 = true
    ∧ (d.Add nm sec b).2.Find nm = sec
    ∧ (d.Add nm sec b).2.Add nm sec2 b2 = (false, (d.Add nm sec b).2)
    ∧ ((d.Add nm sec b).2.Remove nm).1 = true
    ∧ ((d.Add nm sec b).2.Remove nm).2.Find nm = -1
    ∧ ((d.Add nm sec b).2.Remove nm).2.Remove nm = (false, ((d.Add nm sec b).2.Remove nm).2)
    ∧ (d.Add nm sec b).2.table.length = d.table.length
    ∧ (d.Add nm sec b).2.table.countP (fun e => e.inUse)
        = d.table.countP (fun e => e.inUse) + 1
    ∧ (∀ dF : Directory, (∀ e ∈ dF.table, e.inUse = true) → (dF.Add nm sec2 b2).1 = false) := by
  have hnone : findIdxLoop nm d.table = none := by
    rw [Directory.FindIndex] at habsent
    cases hf : findIdxLoop nm d.table with
    | none => rfl
    | some i =>
      rw [hf] at habsent
      simp only [Int.natCast_inj] at habsent
      exact absurd habsent (by omega)
  have hall : ∀ e ∈ d.table, entryMatches e nm = false :=
    (findIdxLoop_none_iff nm d.table).mp hnone
  set eNew : DirectoryEntry :=
    { inUse := true, isDirectory := b, sector := sec, name := padName nm } with heNew
  set eClr : DirectoryEntry :=
    { inUse := false, isDirectory := b, sector := sec,
      name := List.replicate FileNameMaxLen nulChar } with heClr
  obtain ⟨a, eF, bl, htab, haT, heF, hadd⟩ := addLoop_free eNew d.table hfree
  have hA : d.Add nm sec b = (true, ⟨a ++ eNew :: bl⟩) := by
    simp only [Directory.Add, habsent, bne_self_eq_false, Bool.false_eq_true, if_false, hadd]
  have hmatch : entryMatches eNew nm = true := by
    rw [heNew]
    simp [entryMatches, padName, cstrEqN_padBuf]
  have hfind1 : findIdxLoop nm (a ++ eNew :: bl) = some a.length :=
    findIdxLoop_append nm a eNew bl
      (fun x hx => hall x (htab ▸ List.mem_append_left _ hx)) hmatch
  have hgetD : (a ++ eNew :: bl).getD a.length DirectoryEntry.init = eNew :=
    getD_append_length ..
  have hclrE : { eNew with inUse := false, name := List.replicate FileNameMaxLen nulChar }
      = eClr := by
    rw [heNew, heClr]
  have hrem : (⟨a ++ eNew :: bl⟩ : Directory).Remove nm = (true, ⟨a ++ eClr :: bl⟩) := by
    simp only [Directory.Remove, hfind1, hgetD, hclrE, set_append_length]
  have hclr_nomatch : entryMatches eClr nm = false := by
    rw [heClr]
    simp [entryMatches]
  have hfind2 : findIdxLoop nm (a ++ eClr :: bl) = none := by
    refine (findIdxLoop_none_iff nm _).mpr ?_
    intro e he
    rcases List.mem_append.mp he with he' | he'
    · exact hall e (htab ▸ List.mem_append_left _ he')
    · rcases List.mem_cons.mp he' with rfl | he''
      · exact hclr_nomatch
      · exact hall e (htab ▸ List.mem_append_right _ (List.mem_cons_of_mem _ he''))
  refine ⟨by rw [hA], ?_, ?_, ?_, ?_, ?_, ?_, ?_, ?_⟩
  · rw [hA]
    show (⟨a ++ eNew :: bl⟩ : Directory).Find nm = sec
    simp only [Directory.Find, hfind1, hgetD]
  · rw [hA]
    show (⟨a ++ eNew :: bl⟩ : Directory).Add nm sec2 b2 = _
    rw [Directory.Add, Directory.FindIndex]
    simp only [hfind1]
    rw [if_pos (by simp [bne_iff_ne])]
  · rw [hA]
    show ((⟨a ++ eNew :: bl⟩ : Directory).Remove nm).1 = true
    rw [hrem]
  · rw [hA]
    show ((⟨a ++ eNew :: bl⟩ : Directory).Remove nm).2.Find nm = -1
    rw [hrem]
    show (⟨a ++ eClr :: bl⟩ : Directory).Find nm = -1
    simp only [Directory.Find, hfind2]
  · rw [hA]
    show ((⟨a ++ eNew :: bl⟩ : Directory).Remove nm).2.Remove nm = _
    rw [hrem]
    show (⟨a ++ eClr :: bl⟩ : Directory).Remove nm = _
    simp only [Directory.Remove, hfind2]
  · rw [hA, htab]
    simp
  · rw [hA, htab]
    simp only [List.countP_append, List.countP_cons]
    simp [heF]
    omega
  · intro dF hF
    rw [Directory.Add]
    by_cases hfi : dF.FindIndex nm != -1
    · rw [if_pos hfi]
    · rw [if_neg hfi]
      simp only [addLoop_full _ _ hF]

/-- Witness for `directory_add_find_remove`: scenario A on a fresh
10-entry directory. -/
theorem directory_add_find_remove_witness :
    (∃ e ∈ d10.table, e.inUse = false)
    ∧ d10.FindIndex nmFoo = -1
    ∧ ((d10.Add nmFoo 17 false).1 = true
      ∧ (d10.Add nmFoo 17 false).2.Find nmFoo = 17
      ∧ (d10.Add nmFoo 17 false).2.Add nmFoo 22 false = (false, (d10.Add nmFoo 17 false).2)
      ∧ ((d10.Add nmFoo 17 false).2.Remove nmFoo).1 = true
      ∧ ((d10.Add nmFoo 17 false).2.Remove nmFoo).2.Find nmFoo = -1
      ∧ ((d10.Add nmFoo 17 false).2.Remove nmFoo).2.Remove nmFoo
          = (false, ((d10.Add nmFoo 17 false).2.Remove nmFoo).2)
      ∧ (d10.Add nmFoo 17 false).2.table.length = d10.table.length
      ∧ (d10.Add nmFoo 17 false).2.table.countP (fun e => e.inUse)
          = d10.table.countP (fun e => e.inUse) + 1
      ∧ (∀ dF : Directory, (∀ e ∈ dF.table, e.inUse = true) →
          (dF.Add nmFoo 22 false).1 = false)) :=
  ⟨by decide, by decide,
   directory_add_find_remove d10 nmFoo 17 22 false false (by decide) (by decide)⟩

/-- C8: when `name` is present, `Remove` returns true and the only slot
that changes is the matched one, whose in-use flag is cleared and whose
name buffer is zeroed; its `sector` and `isDirectory` fields and every
other slot are untouched.  The embedding of `Remove` takes and returns
only the directory table - mirroring the source, which never touches the
bitmap or the sector store - so no referenced file sector or bitmap bit
can be freed. -/
theorem directory_remove_frame (d : Directory) (nm : List Char) (i : Nat)
    (h : findIdxLoop nm d.table = some i) :
    (d.Remove nm).1 = true
    ∧ (d.Remove nm).2.table = d.table.set i
        { d.table.getD i DirectoryEntry.init with inUse := false, name := List.replicate FileNameMaxLen nulChar }
    ∧ (∀ j : Nat, j ≠ i → (d.Remove nm).2.table[j]? = d.table[j]?)
    ∧ ((d.Remove nm).2.table.getD i DirectoryEntry.init).sector
        = (d.table.getD i DirectoryEntry.init).sector
    ∧ ((d.Remove nm).2.table.getD i DirectoryEntry.init).isDirectory
        = (d.table.getD i DirectoryEntry.init).isDirectory
    ∧ ((d.Remove nm).2.table.getD i DirectoryEntry.init).inUse = false
    ∧ ((d.Remove nm).2.table.getD i DirectoryEntry.init).name
        = List.replicate FileNameMaxLen nulChar := by
  have hlt : i < d.table.length := (findIdxLoop_some nm d.table i h).1
  have hR : d.Remove nm = (true, ⟨d.table.set i
      { d.table.getD i DirectoryEntry.init with inUse := false, name := List.replicate FileNameMaxLen nulChar }⟩) := by
    simp only [Directory.Remove, h]
  have hat : (d.table.set i
      { d.table.getD i DirectoryEntry.init with inUse := false, name := List.replicate FileNameMaxLen nulChar }).getD i DirectoryEntry.init
      = { d.table.getD i DirectoryEntry.init with inUse := false, name := List.replicate FileNameMaxLen nulChar } := by
    rw [List.getD_eq_getElem?_getD, List.getElem?_set_eq_of_lt _ hlt]
    rfl
  refine ⟨by rw [hR], by rw [hR], ?_, ?_, ?_, ?_, ?_⟩
  · intro j hj
    rw [hR]
    exact List.getElem?_set_ne (Ne.symm hj)
  · rw [hR]
    show ((d.table.set i _).getD i DirectoryEntry.init).sector = _
    rw [hat]
  · rw [hR]
    show ((d.table.set i _).getD i DirectoryEntry.init).isDirectory = _
    rw [hat]
  · rw [hR]
    show ((d.table.set i _).getD i DirectoryEntry.init).inUse = false
    rw [hat]
  · rw [hR]
    show ((d.table.set i _).getD i DirectoryEntry.init).name = _
    rw [hat]

/-- Witness for `directory_remove_frame`: removing the single entry of a
3-slot directory. -/
theorem directory_remove_frame_witness :
    findIdxLoop nmFoo dRem.table = some 0
    ∧ ((dRem.Remove nmFoo).1 = true
      ∧ (dRem.Remove nmFoo).2.table = dRem.table.set 0
          { dRem.table.getD 0 DirectoryEntry.init with inUse := false, name := List.replicate FileNameMaxLen nulChar }
      ∧ (∀ j : Nat, j ≠ 0 → (dRem.Remove nmFoo).2.table[j]? = dRem.table[j]?)
      ∧ ((dRem.Remove nmFoo).2.table.getD 0 DirectoryEntry.init).sector
          = (dRem.table.getD 0 DirectoryEntry.init).sector
      ∧ ((dRem.Remove nmFoo).2.table.getD 0 DirectoryEntry.init).isDirectory
          = (dRem.table.getD 0 DirectoryEntry.init).isDirectory
      ∧ ((dRem.Remove nmFoo).2.table.getD 0 DirectoryEntry.init).inUse = false
      ∧ ((dRem.Remove nmFoo).2.table.getD 0 DirectoryEntry.init).name
          = List.replicate FileNameMaxLen nulChar) :=
  ⟨by decide, directory_remove_frame dRem nmFoo 0 (by decide)⟩

/-- Every entry of an `addLoop` result is an original entry or the newly
stored one. -/
theorem addLoop_mem (eNew : DirectoryEntry) : ∀ (es : List DirectoryEntry) (x : DirectoryEntry),
    x ∈ (addLoop eNew es).2 → x ∈ es ∨ x = eNew := by
  intro es
  induction es with
  | nil => intro x hx; rw [addLoop] at hx; cases hx
  | cons e es ih =>
    intro x hx
    rw [addLoop] at hx
    by_cases he : e.inUse
    · rw [if_neg (by rw [he]; simp)] at hx
      rcases List.mem_cons.mp hx with rfl | hx'
      · exact Or.inl (List.mem_cons_self ..)
      · rcases ih x hx' with h | h
        · exact Or.inl (List.mem_cons_of_mem _ h)
        · exact Or.inr h
    · simp only [Bool.not_eq_true] at he
      rw [if_pos (by rw [he]; simp)] at hx
      rcases List.mem_cons.mp hx with rfl | hx'
      · exact Or.inr rfl
      · exact Or.inl (List.mem_cons_of_mem _ hx')

/-- Every entry of an `Add` result is an original entry or is in use. -/
theorem add_mem (d : Directory) (nm : List Char) (sec : Int) (b : Bool) :
    ∀ x ∈ (d.Add nm sec b).2.table, x ∈ d.table ∨ x.inUse = true := by
  intro x hx
  rw [Directory.Add] at hx
  by_cases hfi : (d.FindIndex nm != -1) = true
  · rw [if_pos hfi] at hx
    exact Or.inl hx
  · rw [if_neg hfi] at hx
    have hx2 : x ∈ (addLoop
        { inUse := true, isDirectory := b, sector := sec, name := padName nm }
        d.table).2 := hx
    rcases addLoop_mem _ _ x hx2 with h | h
    · exact Or.inl h
    · subst h
      exact Or.inr rfl

/-- Every entry of a `Remove` result is an original entry or a cleared
slot (not in use, name zeroed). -/
theorem remove_mem (d : Directory) (nm : List Char) :
    ∀ x ∈ (d.Remove nm).2.table, x ∈ d.table
      ∨ (x.inUse = false ∧ x.name = List.replicate FileNameMaxLen nulChar) := by
  intro x hx
  rw [Directory.Remove] at hx
  cases hf : findIdxLoop nm d.table with
  | none =>
    rw [hf] at hx
    exact Or.inl hx
  | some i =>
    rw [hf] at hx
    have hx2 : x ∈ d.table.set i
        { d.table.getD i DirectoryEntry.init with inUse := false, name := List.replicate FileNameMaxLen nulChar } := hx
    rcases List.mem_or_eq_of_mem_set hx2 with h | h
    · exact Or.inl h
    · subst h
      exact Or.inr ⟨rfl, rfl⟩

/-- In an `addLoop` run, any slot that ends up not in use is unchanged
(the only slot written receives the in-use new entry). -/
theorem addLoop_frame (eNew : DirectoryEntry) (hNew : eNew.inUse = true) :
    ∀ (es : List DirectoryEntry) (j : Nat) (e e' : DirectoryEntry),
    es[j]? = some e → (addLoop eNew es).2[j]? = some e' → e'.inUse = false →
    e' = e := by
  intro es
  induction es with
  | nil =>
    intro j e e' hje _ _
    simp at hje
  | cons x es ih =>
    intro j e e' hje hje' hfalse
    rw [addLoop] at hje'
    by_cases hx : x.inUse
    · rw [if_neg (by rw [hx]; simp)] at hje'
      have h2 : (x :: (addLoop eNew es).2)[j]? = some e' := hje'
      cases j with
      | zero =>
        rw [List.getElem?_cons_zero] at h2 hje
        rw [← Option.some.inj h2, ← Option.some.inj hje]
      | succ k =>
        rw [List.getElem?_cons_succ] at h2 hje
        exact ih k e e' hje h2 hfalse
    · simp only [Bool.not_eq_true] at hx
      rw [if_pos (by rw [hx]; simp)] at hje'
      have h2 : (eNew :: es)[j]? = some e' := hje'
      cases j with
      | zero =>
        rw [List.getElem?_cons_zero] at h2
        exfalso
        rw [← Option.some.inj h2, hNew] at hfalse
        cases hfalse
      | succ k =>
        rw [List.getElem?_cons_succ] at h2 hje
        rw [hje] at h2
        exact (Option.some.inj h2).symm

/-- In an `Add` call, any slot that ends up not in use is unchanged. -/
theorem add_frame_entry (d : Directory) (nm : List Char) (sec : Int) (b : Bool) (j : Nat)
    (e e' : DirectoryEntry) (hje : d.table[j]? = some e)
    (hje' : (d.Add nm sec b).2.table[j]? = some e') (hfalse : e'.inUse = false) :
    e' = e := by
  rw [Directory.Add] at hje'
  by_cases hfi : (d.FindIndex nm != -1) = true
  · rw [if_pos hfi] at hje'
    have h2 : d.table[j]? = some e' := hje'
    rw [hje] at h2
    exact (Option.some.inj h2).symm
  · rw [if_neg hfi] at hje'
    have h2 : (addLoop
        { inUse := true, isDirectory := b, sector := sec, name := padName nm }
        d.table).2[j]? = some e' := hje'
    exact addLoop_frame _ rfl d.table j e e' hje h2 hfalse

/-- In a `Remove` call, every slot is either unchanged or is the matched
in-use slot, which is cleared: in-use flag off, name zeroed, other fields
kept. -/
theorem remove_frame_entry (d : Directory) (nm : List Char) (j : Nat) (e e' : DirectoryEntry)
    (hje : d.table[j]? = some e) (hje' : (d.Remove nm).2.table[j]? = some e') :
    e' = e ∨ (e.inUse = true
      ∧ e' = { e with inUse := false, name := List.replicate FileNameMaxLen nulChar }) := by
  rw [Directory.Remove] at hje'
  cases hf : findIdxLoop nm d.table with
  | none =>
    rw [hf] at hje'
    have h2 : d.table[j]? = some e' := hje'
    left
    rw [hje] at h2
    exact (Option.some.inj h2).symm
  | some i =>
    rw [hf] at hje'
    have h2 : (d.table.set i
        { d.table.getD i DirectoryEntry.init with inUse := false, name := List.replicate FileNameMaxLen nulChar })[j]?
        = some e' := hje'
    obtain ⟨hlt, hmt⟩ := findIdxLoop_some nm d.table i hf
    by_cases hji : j = i
    · subst hji
      right
      have hgt : d.table.getD j DirectoryEntry.init = e := by
        rw [List.getD_eq_getElem?_getD, hje]
        rfl
      rw [hgt] at h2 hmt
      constructor
      · simp only [entryMatches, Bool.and_eq_true] at hmt
        exact hmt.1
      · rw [List.getElem?_set_eq_of_lt _ hlt] at h2
        exact (Option.some.inj h2).symm
    · left
      rw [List.getElem?_set_ne (fun he => hji he.symm), hje] at h2
      exact (Option.some.inj h2).symm

/-- C9: in every directory reachable from a fresh directory by `Add` and
`Remove` calls, each slot whose in-use flag is off has an all-NUL name
buffer; moreover no single step changes a slot that ends up free except
by clearing it, and clearing keeps the slot's `sector` and `isDirectory`
values from its last in-use state (initially `-1` and `false`, from the
entry constructor). -/
theorem directory_free_slot_invariant :
    (∀ (n : Nat) (d : Directory), DirReachable n d → freeSlotsClean d)
    ∧ (∀ (d d' : Directory), DirStep d d' → ∀ (j : Nat) (e e' : DirectoryEntry),
        d.table[j]? = some e → d'.table[j]? = some e' → e'.inUse = false →
        (e.inUse = false → e' = e)
        ∧ (e.inUse = true → e'.sector = e.sector ∧ e'.isDirectory = e.isDirectory
            ∧ e'.name = List.replicate FileNameMaxLen nulChar)) := by
  constructor
  · intro n d h
    induction h with
    | base =>
      intro e he _
      have he2 : e = DirectoryEntry.init := List.eq_of_mem_replicate he
      rw [he2]
      rfl
    | step hr hs ih =>
      cases hs with
      | add nm sec b =>
        intro x hx hf
        rcases add_mem _ nm sec b x hx with h | h
        · exact ih x h hf
        · rw [hf] at h
          cases h
      | remove nm =>
        intro x hx hf
        rcases remove_mem _ nm x hx with h | h
        · exact ih x h hf
        · exact h.2
  · intro d d' hs j e e' hje hje' hfalse
    cases hs with
    | add nm sec b =>
      have he'e : e' = e := add_frame_entry d nm sec b j e e' hje hje' hfalse
      subst he'e
      refine ⟨fun _ => rfl, fun hT => ?_⟩
      rw [hT] at hfalse
      cases hfalse
    | remove nm =>
      rcases remove_frame_entry d nm j e e' hje hje' with he'e | ⟨hT, he'⟩
      · subst he'e
        refine ⟨fun _ => rfl, fun hT => ?_⟩
        rw [hT] at hfalse
        cases hfalse
      · refine ⟨fun hF => ?_, fun _ => ?_⟩
        · rw [hF] at hT
          cases hT
        · rw [he']
          exact ⟨rfl, rfl, rfl⟩

/-- Witness for `directory_free_slot_invariant`: the fresh 2-entry
directory, and one `Remove` step on `d10` observed at slot 0. -/
theorem directory_free_slot_invariant_witness :
    DirReachable 2 (Directory.create 2)
    ∧ freeSlotsClean (Directory.create 2)
    ∧ DirStep d10 (d10.Remove nmFoo).2
    ∧ d10.table[0]? = some DirectoryEntry.init
    ∧ (d10.Remove nmFoo).2.table[0]? = some DirectoryEntry.init
    ∧ DirectoryEntry.init.inUse = false
    ∧ ((DirectoryEntry.init.inUse = false → DirectoryEntry.init = DirectoryEntry.init)
      ∧ (DirectoryEntry.init.inUse = true →
          DirectoryEntry.init.sector = DirectoryEntry.init.sector
          ∧ DirectoryEntry.init.isDirectory = DirectoryEntry.init.isDirectory
          ∧ DirectoryEntry.init.name = List.replicate FileNameMaxLen nulChar)) :=
  ⟨DirReachable.base,
   directory_free_slot_invariant.1 2 _ DirReachable.base,
   DirStep.remove d10 nmFoo,
   by decide, by decide, by decide,
   directory_free_slot_invariant.2 d10 _ (DirStep.remove d10 nmFoo) 0 _ _
     (by decide) (by decide) (by decide)⟩
